import Mathlib

/-!
Verification development for the command parsing and execution-ordering
subsystem of `zetas8.6.py`: the quote/escape-aware multi-command splitter
(`MultiCommandProcessor.parse_commands`), the alias layer (`AliasManager`),
and the argument classifier / priority executor (`ParameterSystem`).

Python strings are embedded as `List Char`; the filesystem queried by the
classifier is an explicit record of boolean predicates; handlers invoked by
the priority executor are explicit functions returning `Except` (an
exception raised by a handler is an `Except.error`).
-/

namespace Zetas

/-- named character constants, to build quote/backslash characters. -/
def squote : Char := Char.ofNat 39

def dquote : Char := Char.ofNat 34

def bslash : Char := Char.ofNat 92

/-- Python `str.strip()` whitespace set (ASCII part): space, tab, newline,
carriage return, vertical tab, form feed. -/
def isPySpace (c : Char) : Bool :=
  c = ' ' || c = '\t' || c = '\n' || c = '\r' || c = Char.ofNat 11 || c = Char.ofNat 12

/-- Python `str.strip()`: drop leading and trailing whitespace. -/
def pyStrip (s : List Char) : List Char :=
  ((s.dropWhile isPySpace).reverse.dropWhile isPySpace).reverse

/-! ## Multi-command splitter

`MultiCommandProcessor.parse_commands` scans the input character by
character keeping `in_quotes`, `quote_char` and `skip_next` state.  The
Python `for i, char in enumerate(...)` loop with lookahead
`command_string[i+1]` becomes structural recursion on the character list:
`i + 1 < len` is `rest ≠ []` and `command_string[i+1]` is the head of
`rest`. -/

def pcLoop (cs : List Char) (cur : List Char) (inQ : Bool) (qc : Option Char)
    (skip : Bool) (cmds : List (List Char)) : List (List Char) :=
  match cs with
  | [] => if cur.isEmpty then cmds else cmds ++ [pyStrip cur]
  | c :: rest =>
    if skip then
      pcLoop rest (cur ++ [c]) inQ qc false cmds
    else if c = bslash && !rest.isEmpty then
      pcLoop rest (cur ++ [rest.headD c]) inQ qc true cmds
    else if c = dquote || c = squote then
      if !inQ then pcLoop rest (cur ++ [c]) true (some c) false cmds
      else if qc = some c then pcLoop rest (cur ++ [c]) false none false cmds
      else pcLoop rest (cur ++ [c]) inQ qc false cmds
    else if c = '+' && !inQ then
      if cur.isEmpty then pcLoop rest [] inQ qc false cmds
      else pcLoop rest [] inQ qc false (cmds ++ [pyStrip cur])
    else
      pcLoop rest (cur ++ [c]) inQ qc false cmds

/-- `MultiCommandProcessor.parse_commands`: split a raw command line on `+`
outside quotes, with backslash handling as in the source. -/
def parse_commands (s : List Char) : List (List Char) :=
  pcLoop s [] false none false []

/-! ## Alias layer (`AliasManager`)

The alias table is a Python dict `str -> str`: embedded as an association
list with first-match lookup and update-in-place insertion (Python dict
assignment keeps the position of an existing key). -/

abbrev AliasTable := List (List Char × List Char)

/-- dict lookup: first (unique) matching key. -/
def lookupA (t : AliasTable) (k : List Char) : Option (List Char) :=
  match t with
  | [] => none
  | (k₁, v₁) :: rest => if k₁ = k then some v₁ else lookupA rest k

/-- dict assignment `d[k] = v`: replace in place, else append. -/
def setA (t : AliasTable) (k v : List Char) : AliasTable :=
  match t with
  | [] => [(k, v)]
  | (k₁, v₁) :: rest => if k₁ = k then (k, v) :: rest else (k₁, v₁) :: setA rest k v

/-- Python `command.strip().split(maxsplit=1)`: strip, then split off the
first whitespace-run-delimited token; the remainder keeps its internal
whitespace but loses the separating run. -/
def pySplitMax1 (s : List Char) : List (List Char) :=
  let t := pyStrip s
  if t.isEmpty then []
  else
    let name := t.takeWhile (fun c => !isPySpace c)
    let rest := (t.dropWhile (fun c => !isPySpace c)).dropWhile isPySpace
    if rest.isEmpty then [name] else [name, rest]

/-- `AliasManager.expand_alias`: replace the leading token when it is an
alias key; one lookup only, the replacement text is not looked up again. -/
def expand_alias (t : AliasTable) (command : List Char) : List Char :=
  match pySplitMax1 command with
  | [] => command
  | name :: rest =>
    match lookupA t name with
    | none => command
    | some repl =>
      match rest with
      | [] => repl
      | r :: _ => repl ++ ' ' :: r

/-- `AliasManager.add_alias`: reserved names are rejected (returns `False`,
table untouched); otherwise the binding is stored and `True` returned.
Persistence and printing are I/O and are not modelled. -/
def add_alias (t : AliasTable) (name command : List Char) : Bool × AliasTable :=
  if name = "alias".toList ∨ name = "unalias".toList then (false, t)
  else (true, setA t name command)

/-! ## Argument classifier (`ParameterSystem.parse_args`)

The filesystem consulted by `os.path.isdir` / `os.path.isfile` /
`os.access(..., X_OK)` is an explicit record; `os.path.exists` holds when
the path is a directory or a regular file.  `os.name` being the POSIX value is the
boolean parameter `posix`. -/

structure FS where
  isDir : List Char → Bool
  isFile : List Char → Bool
  execPerm : List Char → Bool

def pathExists (fs : FS) (p : List Char) : Bool :=
  fs.isDir p || fs.isFile p

/-- index of the last occurrence of `c` in `p`, as in Python `str.rfind`
(`none` for `-1`). -/
def lastIdxOf (c : Char) (p : List Char) : Option Nat :=
  match p.reverse.findIdx? (fun x => x = c) with
  | none => none
  | some j => some (p.length - 1 - j)

/-- `os.path.splitext(p)[1]` (POSIX flavour): the extension starts at the
last dot after the last slash, unless the basename up to that dot is all
dots (so `.bashrc` has no extension). -/
def splitext_ext (p : List Char) : List Char :=
  match lastIdxOf '.' p with
  | none => []
  | some d =>
    let sepI : Int := match lastIdxOf '/' p with
      | none => -1
      | some k => (k : Int)
    if sepI < (d : Int) then
      let fi := (sepI + 1).toNat
      if ((p.drop fi).take (d - fi)).all (fun c => c = '.') then []
      else p.drop d
    else []

def executable_exts : List (List Char) :=
  [".exe".toList, ".bat".toList, ".cmd".toList, ".sh".toList, ".py".toList, ".app".toList]

/-- `ParameterSystem._is_executable`: `False` for a path that does not
exist; else extension in the allow-set, else (POSIX only) the exec
permission bit. -/
def is_executable (fs : FS) (posix : Bool) (p : List Char) : Bool :=
  if !pathExists fs p then false
  else if executable_exts.contains ((splitext_ext p).map Char.toLower) then true
  else if posix then fs.execPerm p
  else false

/-- value stored in the `options` dict: a following token, or Python
`True` when no eligible token follows. -/
inductive OptVal where
  | str (s : List Char)
  | boolTrue
deriving DecidableEq, Repr

/-- the six buckets of the result dict of `parse_args`; `options` is a dict
embedded like `AliasTable`. -/
structure ParsedArgs where
  commands : List (List Char × Option (List Char))
  files : List (List Char)
  directories : List (List Char)
  executables : List (List Char)
  options : List (List Char × OptVal)
  scripts : List (List Char)
deriving DecidableEq, Repr

def emptyParsed : ParsedArgs := ⟨[], [], [], [], [], []⟩

/-- dict assignment for the options dict. -/
def setOpt (t : List (List Char × OptVal)) (k : List Char) (v : OptVal) :
    List (List Char × OptVal) :=
  match t with
  | [] => [(k, v)]
  | (k₁, v₁) :: rest => if k₁ = k then (k, v) :: rest else (k₁, v₁) :: setOpt rest k v

/-- Python `s.startswith(c)` for a single character. -/
def startsWith1 (c : Char) (s : List Char) : Bool :=
  s.head? = some c

/-- Python `s.endswith(suffix)`. -/
def endsWithL (suffix s : List Char) : Bool :=
  s.reverse.take suffix.length = suffix.reverse

/-- the `elif` chain below the two flag cases of `parse_args`: classify a
token that starts with neither `/` nor `-`, appending it to the bucket the
source picks. -/
def classifyOther (fs : FS) (posix : Bool) (arg : List Char) (r : ParsedArgs) :
    ParsedArgs :=
  if endsWithL ".zetas".toList arg then
    {r with scripts := r.scripts ++ [arg]}
  else if fs.isDir arg then
    {r with directories := r.directories ++ [arg]}
  else if fs.isFile arg then
    if is_executable fs posix arg then
      {r with executables := r.executables ++ [arg]}
    else
      {r with files := r.files ++ [arg]}
  else
    if is_executable fs posix arg then
      {r with executables := r.executables ++ [arg]}
    else
      {r with files := r.files ++ [arg]}

/-- the `while i < len(args)` loop of `ParameterSystem.parse_args`, with the
lookahead `args[i+1]` and the `i += 1` skip expressed by recursing on the
tail past the consumed value token; the last-token case (`i + 1 < len(args)`
false) is the singleton pattern. -/
def paLoop (fs : FS) (posix : Bool) (args : List (List Char)) (r : ParsedArgs) :
    ParsedArgs :=
  match args with
  | [] => r
  | [arg] =>
    if startsWith1 '/' arg then
      {r with commands := r.commands ++ [(arg.drop 1, none)]}
    else if startsWith1 '-' arg then
      {r with options := setOpt r.options arg OptVal.boolTrue}
    else
      classifyOther fs posix arg r
  | arg :: next :: rest2 =>
    if startsWith1 '/' arg then
      if !(startsWith1 '-' next || startsWith1 '/' next) then
        paLoop fs posix rest2 {r with commands := r.commands ++ [(arg.drop 1, some next)]}
      else
        paLoop fs posix (next :: rest2) {r with commands := r.commands ++ [(arg.drop 1, none)]}
    else if startsWith1 '-' arg then
      if !(startsWith1 '-' next || startsWith1 '/' next) then
        paLoop fs posix rest2 {r with options := setOpt r.options arg (OptVal.str next)}
      else
        paLoop fs posix (next :: rest2) {r with options := setOpt r.options arg OptVal.boolTrue}
    else
      paLoop fs posix (next :: rest2) (classifyOther fs posix arg r)

/-- `ParameterSystem.parse_args`. -/
def parse_args (fs : FS) (posix : Bool) (args : List (List Char)) : ParsedArgs :=
  paLoop fs posix args emptyParsed

/-- a filesystem on which no path exists. -/
def fsEmpty : FS := ⟨fun _ => false, fun _ => false, fun _ => false⟩

/-- a character the splitter treats with its default branch: not the escape
character, not a quote, not the separator. -/
def plainChar (c : Char) : Prop :=
  c ≠ bslash ∧ c ≠ dquote ∧ c ≠ squote ∧ c ≠ '+'

instance (c : Char) : Decidable (plainChar c) := by
  unfold plainChar
  infer_instance

/-- alias table used for the C4 counterexample: `ll -> ls -la` and
`ls -> sl` both registered. -/
def aliasesLL : AliasTable :=
  [("ll".toList, "ls -la".toList), ("ls".toList, "sl".toList)]

/-! ## Priority executor (`ParameterSystem.execute_in_order`)

The five category handlers are explicit functions; a handler that raises is
an `Except.error` carrying `str(e)`, caught by the per-item `try`/`except`
of the source.  The handlers close over the parsed options dict and
`script_state`, which the source passes to every call unchanged.  The
`config.set` side effects of `-console` / `-bash` are process state outside
the result log and are not modelled; their appended result entries are. -/

structure Handlers where
  cmd : List Char → Option (List Char) → Except (List Char) Bool
  script : List Char → Except (List Char) Bool
  file : List Char → Except (List Char) Bool
  dir : List Char → Except (List Char) Bool
  prog : List Char → Except (List Char) Bool

/-- the five keys of `execution_sequence`, in source order. -/
inductive Category where
  | commands | scripts | files | directories | executables
deriving DecidableEq, Repr

def executionSequence : List Category :=
  [Category.commands, Category.scripts, Category.files, Category.directories,
   Category.executables]

/-- the dict key for a category, as the source spells it. -/
def catName : Category → List Char
  | Category.commands => "commands".toList
  | Category.scripts => "scripts".toList
  | Category.files => "files".toList
  | Category.directories => "directories".toList
  | Category.executables => "executables".toList

/-- the label head interpolating the category name minus its final
character, then a colon and space (so `directories` yields `directorie`,
as in the source). -/
def catLabel (c : Category) : List Char :=
  (catName c).dropLast ++ ": ".toList

/-- the tail of the except-branch label: literal text, then the caught
exception message. -/
def errSuffix (e : List Char) : List Char :=
  " - 错误: ".toList ++ e

/-- CPython `str` of the `(cmd, arg)` tuple, as interpolated into the
except-branch label for the `commands` category (plain strings, no escapes
needed for the inputs considered here). -/
def tupleStr (c : List Char) (a : Option (List Char)) : List Char :=
  ['(', squote] ++ c ++ [squote, ',', ' '] ++
    (match a with
     | some s => [squote] ++ s ++ [squote]
     | none => "None".toList) ++ [')']

/-- the success label of a flag-command, from the f-string interpolating
the command and then `arg if arg else` the empty string (which is empty for
`None` and for an empty value alike), with a space between them. -/
def cmdLabel (c : List Char) (a : Option (List Char)) : List Char :=
  "命令: /".toList ++ c ++ [' '] ++ a.getD []

/-- one iteration of the inner `for item in items` loop for the `commands`
category: call the handler inside `try`, record success or the caught
exception. -/
def runCmdItem (H : Handlers) (it : List Char × Option (List Char)) :
    List Char × Bool :=
  match H.cmd it.1 it.2 with
  | Except.ok b => (cmdLabel it.1 it.2, b)
  | Except.error e => (catLabel Category.commands ++ tupleStr it.1 it.2 ++ errSuffix e, false)

/-- one iteration of the inner loop for a string-item category. -/
def runStrItem (h : List Char → Except (List Char) Bool) (cat : Category)
    (it : List Char) : List Char × Bool :=
  match h it with
  | Except.ok b => (catLabel cat ++ it, b)
  | Except.error e => (catLabel cat ++ it ++ errSuffix e, false)

/-- the inner loop over the items of one category. -/
def runCategory (H : Handlers) (p : ParsedArgs) : Category → List (List Char × Bool)
  | Category.commands => p.commands.map (runCmdItem H)
  | Category.scripts => p.scripts.map (runStrItem H.script Category.scripts)
  | Category.files => p.files.map (runStrItem H.file Category.files)
  | Category.directories => p.directories.map (runStrItem H.dir Category.directories)
  | Category.executables => p.executables.map (runStrItem H.prog Category.executables)

/-- the outer loop `for category, handler in execution_sequence`, appending
the results of each category to the accumulated list. -/
def execLoop (H : Handlers) (p : ParsedArgs) (cats : List Category)
    (res : List (List Char × Bool)) : List (List Char × Bool) :=
  match cats with
  | [] => res
  | c :: cs => execLoop H p cs (res ++ runCategory H p c)

/-- the trailing loop over the items of the parsed options dict:
`-console` and `-bash` append a success entry (the stored value is
ignored); every other option appends nothing. -/
def optionLoop (opts : List (List Char × OptVal)) (res : List (List Char × Bool)) :
    List (List Char × Bool) :=
  match opts with
  | [] => res
  | (o, _) :: rest =>
    if o = "-console".toList then
      optionLoop rest (res ++ [("选项: 切换到控制台界面".toList, true)])
    else if o = "-bash".toList then
      optionLoop rest (res ++ [("选项: 启用Bash语法".toList, true)])
    else
      optionLoop rest res

/-- `ParameterSystem.execute_in_order`. -/
def execute_in_order (H : Handlers) (p : ParsedArgs) : List (List Char × Bool) :=
  optionLoop p.options (execLoop H p executionSequence [])

/-- the option entries appended by the trailing loop, written directly. -/
def optionEffects (opts : List (List Char × OptVal)) : List (List Char × Bool) :=
  match opts with
  | [] => []
  | (o, _) :: rest =>
    if o = "-console".toList then
      ("选项: 切换到控制台界面".toList, true) :: optionEffects rest
    else if o = "-bash".toList then
      ("选项: 启用Bash语法".toList, true) :: optionEffects rest
    else
      optionEffects rest

/-- the number of items the five executed buckets hold. -/
def fiveCount (p : ParsedArgs) : Nat :=
  p.commands.length + p.scripts.length + p.files.length + p.directories.length +
    p.executables.length

/-- how many option entries are one of the two recognized side-effecting
options. -/
def sideEffectCount : List (List Char × OptVal) → Nat
  | [] => 0
  | (o, _) :: rest =>
    (if o = "-console".toList ∨ o = "-bash".toList then 1 else 0) + sideEffectCount rest

/-- handlers that always succeed, for concrete executor runs. -/
def okHandlers : Handlers :=
  ⟨fun _ _ => Except.ok true, fun _ => Except.ok true, fun _ => Except.ok true,
   fun _ => Except.ok true, fun _ => Except.ok true⟩

/-- handlers whose file handler raises `boom` on every item. -/
def fileRaises : Handlers :=
  {okHandlers with file := fun _ => Except.error "boom".toList}

end Zetas

namespace Zetas

/-! ## Lemmas about the splitter -/

theorem isPySpace_bslash : isPySpace bslash = false := by decide

theorem isPySpace_dquote : isPySpace dquote = false := by decide

theorem isPySpace_squote : isPySpace squote = false := by decide

/-- stripping a list ending in a non-whitespace character only strips the
front. -/
theorem pyStrip_concat_nonspace (l : List Char) (a : Char) (ha : isPySpace a = false) :
    pyStrip (l ++ [a]) = l.dropWhile isPySpace ++ [a] := by
  have key : List.dropWhile isPySpace (l ++ [a]) = List.dropWhile isPySpace l ++ [a] := by
    rw [List.dropWhile_append]
    split
    · next h =>
      rw [List.isEmpty_iff] at h
      rw [h]
      simp [List.dropWhile_cons, ha]
    · rfl
  simp [pyStrip, key, List.dropWhile_cons, ha]

/-- scanning plain characters in the ground state just accumulates them,
and the end-of-input rule emits the stripped segment when non-empty. -/
theorem pcLoop_plain (cs : List Char) :
    ∀ cur cmds, (∀ c ∈ cs, plainChar c) →
      pcLoop cs cur false none false cmds =
        if (cur ++ cs).isEmpty then cmds else cmds ++ [pyStrip (cur ++ cs)] := by
  induction cs with
  | nil =>
    intro cur cmds _
    simp [pcLoop]
  | cons c rest ih =>
    intro cur cmds h
    obtain ⟨h1, h2, h3, h4⟩ := h c (List.mem_cons_self c rest)
    have hrest : ∀ x ∈ rest, plainChar x := fun x hx => h x (List.mem_cons_of_mem c hx)
    have step : pcLoop (c :: rest) cur false none false cmds =
        pcLoop rest (cur ++ [c]) false none false cmds := by
      simp [pcLoop, h1, h2, h3, h4]
    rw [step, ih (cur ++ [c]) cmds hrest]
    simp [List.append_assoc]

/-- a trailing backslash has no character to escape and falls through to
the default branch, so it is appended like a plain character. -/
theorem pcLoop_plain_bslash (cs : List Char) :
    ∀ cur cmds, (∀ c ∈ cs, plainChar c) →
      pcLoop (cs ++ [bslash]) cur false none false cmds =
        cmds ++ [pyStrip (cur ++ cs ++ [bslash])] := by
  induction cs with
  | nil =>
    intro cur cmds _
    simp [pcLoop, (by decide : bslash = dquote ↔ False), (by decide : bslash = squote ↔ False),
      (by decide : bslash = '+' ↔ False)]
  | cons c rest ih =>
    intro cur cmds h
    obtain ⟨h1, h2, h3, h4⟩ := h c (List.mem_cons_self c rest)
    have hrest : ∀ x ∈ rest, plainChar x := fun x hx => h x (List.mem_cons_of_mem c hx)
    have step : pcLoop ((c :: rest) ++ [bslash]) cur false none false cmds =
        pcLoop (rest ++ [bslash]) (cur ++ [c]) false none false cmds := by
      simp [pcLoop, h1, h2, h3, h4]
    rw [step, ih (cur ++ [c]) cmds hrest]
    simp [List.append_assoc]

/-- inside an open quote `q`, every character other than a backslash or `q`
itself (including the separator and the other quote character) is appended
with the quote state unchanged. -/
theorem pcLoop_inquote_step (q : Char) (cs : List Char) :
    ∀ rest cur cmds, (∀ c ∈ cs, c ≠ bslash ∧ c ≠ q) →
      pcLoop (cs ++ rest) cur true (some q) false cmds =
        pcLoop rest (cur ++ cs) true (some q) false cmds := by
  induction cs with
  | nil =>
    intro rest cur cmds _
    simp
  | cons c tl ih =>
    intro rest cur cmds h
    obtain ⟨h1, h2⟩ := h c (List.mem_cons_self c tl)
    have htl : ∀ x ∈ tl, x ≠ bslash ∧ x ≠ q := fun x hx => h x (List.mem_cons_of_mem c hx)
    have step : pcLoop ((c :: tl) ++ rest) cur true (some q) false cmds =
        pcLoop (tl ++ rest) (cur ++ [c]) true (some q) false cmds := by
      by_cases hc : c = dquote ∨ c = squote
      · have hcq : ¬ (some q = some c) := by
          intro hs
          exact h2 (Option.some.inj hs).symm
        simp [pcLoop, h1, hc, hcq]
      · simp [pcLoop, h1, hc, (by simpa using hc : ¬ c = dquote ∧ ¬ c = squote)]
    rw [step, ih rest (cur ++ [c]) cmds htl]
    simp [List.append_assoc]

/-- scanning plain characters in the ground state accumulates them and
leaves the state untouched, whatever input follows. -/
theorem pcLoop_plain_step (cs : List Char) :
    ∀ rest cur cmds, (∀ c ∈ cs, plainChar c) →
      pcLoop (cs ++ rest) cur false none false cmds =
        pcLoop rest (cur ++ cs) false none false cmds := by
  induction cs with
  | nil =>
    intro rest cur cmds _
    simp
  | cons c tl ih =>
    intro rest cur cmds h
    obtain ⟨h1, h2, h3, h4⟩ := h c (List.mem_cons_self c tl)
    have htl : ∀ x ∈ tl, plainChar x := fun x hx => h x (List.mem_cons_of_mem c hx)
    have step : pcLoop ((c :: tl) ++ rest) cur false none false cmds =
        pcLoop (tl ++ rest) (cur ++ [c]) false none false cmds := by
      simp [pcLoop, h1, h2, h3, h4]
    rw [step, ih rest (cur ++ [c]) cmds htl]
    simp [List.append_assoc]

/-- dropping leading whitespace stops at a non-whitespace character, and so
distributes over an append whose right part starts with one. -/
theorem dropWhile_append_cons_nonspace (l₁ : List Char) (a : Char) (l₂ : List Char)
    (ha : isPySpace a = false) :
    List.dropWhile isPySpace (l₁ ++ a :: l₂) = List.dropWhile isPySpace l₁ ++ a :: l₂ := by
  rw [List.dropWhile_append]
  split
  · next h =>
    rw [List.isEmpty_iff] at h
    rw [h]
    simp [List.dropWhile_cons, ha]
  · rfl

/-- stripping a line that contains a region delimited by a non-whitespace
character `q` trims the left of the prefix and the right of the suffix and
keeps the delimited region verbatim. -/
theorem pyStrip_wrap (q : Char) (pre mid post : List Char) (hqs : isPySpace q = false) :
    pyStrip (pre ++ (q :: mid ++ [q]) ++ post) =
      pre.dropWhile isPySpace ++ (q :: mid ++ [q]) ++
        (post.reverse.dropWhile isPySpace).reverse := by
  have e1 : pre ++ (q :: mid ++ [q]) ++ post = pre ++ q :: (mid ++ [q] ++ post) := by
    simp
  have key1 : List.dropWhile isPySpace (pre ++ (q :: mid ++ [q]) ++ post) =
      List.dropWhile isPySpace pre ++ q :: (mid ++ [q] ++ post) := by
    rw [e1, dropWhile_append_cons_nonspace pre q _ hqs]
  have e2 : (List.dropWhile isPySpace pre ++ q :: (mid ++ [q] ++ post)).reverse =
      post.reverse ++ q :: (mid.reverse ++ q :: (List.dropWhile isPySpace pre).reverse) := by
    simp
  rw [pyStrip, key1, e2, dropWhile_append_cons_nonspace post.reverse q _ hqs]
  simp

/-! ## Claims about the splitter -/

/-- C1 — code behavior at the claimed example: the escape branch appends
`command_string[i + 1]` and the `skip_next` branch then appends the same
character again, so splitting the input `a\+b` yields `["a++b"]`, not the
`["a+b"]` the claim states (the pair is still never treated as a
separator). -/
theorem claim_C1_code_behavior :
    parse_commands ['a', bslash, '+', 'b'] = [['a', '+', '+', 'b']] := by decide

/-- C2 counterexample — the source guards segment emission with
`if current_command:` **before** stripping, so a segment of pure whitespace
is emitted as the empty string: `"a+ +b"` splits to `["a", "", "b"]` and
the whitespace-only input `" "` splits to `[""]`, refuting both the
never-empty-segment claim and the `[]`-for-blank claim. -/
theorem claim_C2_counterexample :
    parse_commands "a+ +b".toList = ["a".toList, [], "b".toList] ∧
      parse_commands " ".toList = [[]] := by decide

/-- C2 (amended) — a segment empty **before** trimming is discarded, while
a non-empty segment is emitted as its trimmed text (possibly the empty
string); hence for every string of plain characters (no separator, quote
or backslash) the splitter returns `[]` exactly when the input is empty and
`[trim(input)]` otherwise. -/
theorem claim_C2_plain_split (s : List Char) (h : ∀ c ∈ s, plainChar c) :
    parse_commands s = if s = [] then [] else [pyStrip s] := by
  rw [parse_commands, pcLoop_plain s [] [] h]
  simp [List.isEmpty_iff]

/-- C2 witness. -/
theorem claim_C2_plain_split_witness :
    parse_commands "  ab ".toList = if "  ab ".toList = [] then [] else [pyStrip "  ab ".toList] :=
  claim_C2_plain_split "  ab ".toList (by decide)

/-- C9 — in any input line made of unquoted plain text, then a matching
pair of single or double quotes, then unquoted plain text, a separator
occurring between the quotes (the quoted content may hold separators,
whitespace and the other quote character, just no backslash and no nested
copy of the delimiter) is never treated as a command separator: the whole
line comes back as a single segment, with the opening and closing quote
characters and everything between them retained verbatim, only the
unquoted ends being whitespace-trimmed. -/
theorem claim_C9_quoted_separator (q : Char) (pre mid post : List Char)
    (hq : q = dquote ∨ q = squote)
    (hpre : ∀ c ∈ pre, plainChar c)
    (hmid : ∀ c ∈ mid, c ≠ bslash ∧ c ≠ q)
    (hpost : ∀ c ∈ post, plainChar c) :
    parse_commands (pre ++ (q :: mid ++ [q]) ++ post) =
      [pre.dropWhile isPySpace ++ (q :: mid ++ [q]) ++
        (post.reverse.dropWhile isPySpace).reverse] := by
  have hqb : q ≠ bslash := by
    rcases hq with h' | h' <;> rw [h'] <;> decide
  have hquote : (q = dquote || q = squote) = true := by
    rcases hq with h' | h' <;> simp [h']
  have hqs : isPySpace q = false := by
    rcases hq with h' | h' <;> rw [h'] <;> decide
  have e1 : pre ++ (q :: mid ++ [q]) ++ post = pre ++ (q :: (mid ++ (q :: post))) := by
    simp
  have openq : pcLoop (q :: (mid ++ (q :: post))) pre false none false [] =
      pcLoop (mid ++ (q :: post)) (pre ++ [q]) true (some q) false [] := by
    simp [pcLoop, hqb, hquote]
  have closeq : pcLoop (q :: post) ((pre ++ [q]) ++ mid) true (some q) false [] =
      pcLoop post (((pre ++ [q]) ++ mid) ++ [q]) false none false [] := by
    simp [pcLoop, hqb, hquote]
  have e2 : (((pre ++ [q]) ++ mid) ++ [q]) ++ post = pre ++ (q :: mid ++ [q]) ++ post := by
    simp
  have e3 : (pre ++ (q :: mid ++ [q]) ++ post).isEmpty = false := by
    simp
  rw [parse_commands, e1, pcLoop_plain_step pre _ [] [] hpre, List.nil_append, openq,
    pcLoop_inquote_step q mid _ _ [] hmid, closeq, pcLoop_plain post _ [] hpost, e2, e3]
  rw [if_neg (by simp), pyStrip_wrap q pre mid post hqs]
  simp

/-- C9 witness: the spec example shape — unquoted `a`, then `"+"`, then
unquoted `b` — stays one segment retaining both quotes. -/
theorem claim_C9_quoted_separator_witness :
    parse_commands ("a".toList ++ (dquote :: "+".toList ++ [dquote]) ++ "b".toList) =
      ["a".toList.dropWhile isPySpace ++ (dquote :: "+".toList ++ [dquote]) ++
        ("b".toList.reverse.dropWhile isPySpace).reverse] :=
  claim_C9_quoted_separator dquote "a".toList "+".toList "b".toList
    (Or.inl rfl) (by decide) (by decide) (by decide)

/-- C10 — a backslash that is the final character of the input has no
following character to escape, falls through to the default branch, and is
retained literally at the end of the last segment. -/
theorem claim_C10_trailing_backslash (s : List Char) (h : ∀ c ∈ s, plainChar c) :
    parse_commands (s ++ [bslash]) = [s.dropWhile isPySpace ++ [bslash]] := by
  rw [parse_commands, pcLoop_plain_bslash s [] [] h]
  simp [pyStrip_concat_nonspace s bslash isPySpace_bslash]

/-- C10 witness: splitting `a\` yields `["a\"]`, the backslash preserved. -/
theorem claim_C10_trailing_backslash_witness :
    parse_commands ("a".toList ++ [bslash]) = ["a".toList.dropWhile isPySpace ++ [bslash]] :=
  claim_C10_trailing_backslash "a".toList (by decide)

/-! ## Lemmas about the alias table -/

/-- dict assignment followed by lookup: the written key reads back the new
value, every other key is untouched. -/
theorem lookupA_setA (t : AliasTable) (k v k₁ : List Char) :
    lookupA (setA t k v) k₁ = if k = k₁ then some v else lookupA t k₁ := by
  induction t with
  | nil => simp [setA, lookupA]
  | cons a rest ih =>
    obtain ⟨ka, va⟩ := a
    by_cases hak : ka = k
    · subst hak
      by_cases hk1 : ka = k₁ <;> simp [setA, lookupA, hk1]
    · by_cases hk1 : ka = k₁
      · subst hk1
        have : ¬ k = ka := fun h => hak h.symm
        simp [setA, lookupA, hak, this]
      · simp [setA, lookupA, hak, hk1, ih]

/-! ## Claims about the alias layer -/

/-- C4 counterexample — with `ll -> ls -la` and `ls -> sl` registered,
expanding `"ll /tmp"` yields `"ls -la /tmp"`, but applying `expand_alias`
again to that result expands the now-leading `ls` to `"sl -la /tmp"`: a
second application of the operation does expand further, contrary to the
claim. -/
theorem claim_C4_counterexample :
    expand_alias aliasesLL "ll /tmp".toList = "ls -la /tmp".toList ∧
      expand_alias aliasesLL (expand_alias aliasesLL "ll /tmp".toList) = "sl -la /tmp".toList ∧
      expand_alias aliasesLL (expand_alias aliasesLL "ll /tmp".toList) ≠ "ls -la /tmp".toList := by
  decide

/-- C4 (amended) — expansion is one hop **per call**: expanding
`"ll /tmp"` with `ll -> ls -la` registered yields exactly
`"ls -la /tmp"`, and within that single call the replacement is not looked
up again — the result is the same whatever the alias `ls` maps to; a
further application of the operation, however, may expand again. -/
theorem claim_C4_one_hop_per_call (z : List Char) :
    expand_alias [("ll".toList, "ls -la".toList), ("ls".toList, z)] "ll /tmp".toList =
      "ls -la /tmp".toList := rfl

/-- C7 — registering an alias under a reserved name fails and leaves the
table exactly unchanged, and consequently an add operation can never make
`alias` or `unalias` a key of a table that did not already contain them. -/
theorem claim_C7_reserved_names (t : AliasTable) (name cmd : List Char) :
    (name = "alias".toList ∨ name = "unalias".toList →
      add_alias t name cmd = (false, t)) ∧
    (lookupA t "alias".toList = none → lookupA t "unalias".toList = none →
      lookupA (add_alias t name cmd).2 "alias".toList = none ∧
        lookupA (add_alias t name cmd).2 "unalias".toList = none) := by
  constructor
  · intro h
    rw [add_alias, if_pos h]
  · intro h1 h2
    by_cases hres : name = "alias".toList ∨ name = "unalias".toList
    · rw [add_alias, if_pos hres]
      exact ⟨h1, h2⟩
    · rw [add_alias, if_neg hres]
      dsimp only
      push_neg at hres
      rw [lookupA_setA, lookupA_setA, if_neg hres.1, if_neg hres.2]
      exact ⟨h1, h2⟩

/-- C7 witness. -/
theorem claim_C7_reserved_names_witness :
    add_alias [] "alias".toList "x".toList = (false, []) ∧
      lookupA (add_alias [] "x".toList "y".toList).2 "alias".toList = none :=
  ⟨(claim_C7_reserved_names [] "alias".toList "x".toList).1 (Or.inl rfl),
   ((claim_C7_reserved_names [] "x".toList "y".toList).2 rfl rfl).1⟩

/-! ## Claims about the argument classifier -/

/-- C3 counterexample — `foo.exe` does not exist on the filesystem, its
extension is in the allow-set, yet it is classified into `files`:
`_is_executable` returns `False` for every nonexistent path before ever
looking at the extension. -/
theorem claim_C3_counterexample :
    is_executable fsEmpty true "foo.exe".toList = false ∧
      parse_args fsEmpty true ["foo.exe".toList] =
        {emptyParsed with files := ["foo.exe".toList]} := by decide

/-- C3 (amended) — for a token that is not flag-like, does not end in
`.zetas` and is not an existing directory or file, `_is_executable` returns
`False` (it requires the path to exist), so the token is always placed in
the `files` bucket regardless of its extension. -/
theorem claim_C3_nonexistent_to_files (fs : FS) (posix : Bool) (arg : List Char)
    (rest : List (List Char)) (r : ParsedArgs)
    (h1 : startsWith1 '/' arg = false) (h2 : startsWith1 '-' arg = false)
    (h3 : endsWithL ".zetas".toList arg = false)
    (h4 : fs.isDir arg = false) (h5 : fs.isFile arg = false) :
    is_executable fs posix arg = false ∧
      paLoop fs posix (arg :: rest) r = paLoop fs posix rest {r with files := r.files ++ [arg]} := by
  have hex : is_executable fs posix arg = false := by
    simp [is_executable, pathExists, h4, h5]
  have g1 : ¬ (startsWith1 '/' arg = true) := by rw [h1]; simp
  have g2 : ¬ (startsWith1 '-' arg = true) := by rw [h2]; simp
  have g3 : ¬ (endsWithL ".zetas".toList arg = true) := by rw [h3]; simp
  have g4 : ¬ (fs.isDir arg = true) := by rw [h4]; simp
  have g5 : ¬ (fs.isFile arg = true) := by rw [h5]; simp
  have gex : ¬ (is_executable fs posix arg = true) := by rw [hex]; simp
  have hco : classifyOther fs posix arg r = {r with files := r.files ++ [arg]} := by
    rw [classifyOther, if_neg g3, if_neg g4, if_neg g5, if_neg gex]
  refine ⟨hex, ?_⟩
  cases rest with
  | nil =>
    show paLoop fs posix [arg] r = _
    simp only [paLoop]
    rw [if_neg g1, if_neg g2, hco]
  | cons next rest2 =>
    show paLoop fs posix (arg :: next :: rest2) r = _
    simp only [paLoop]
    rw [if_neg g1, if_neg g2, hco]

/-- C3 witness. -/
theorem claim_C3_nonexistent_to_files_witness :
    is_executable fsEmpty true "nosuchdir.exe".toList = false ∧
      paLoop fsEmpty true ["nosuchdir.exe".toList] emptyParsed =
        paLoop fsEmpty true [] {emptyParsed with files := emptyParsed.files ++ ["nosuchdir.exe".toList]} :=
  claim_C3_nonexistent_to_files fsEmpty true "nosuchdir.exe".toList [] emptyParsed
    rfl rfl (by decide) rfl rfl

/-- C8 — a `/`-token is a flag-command and consumes the immediately
following token as its value exactly when such a token exists and starts
with neither `-` nor `/` (else the value is `None` and the next token is
classified on its own); a `-`-token follows the same lookahead rule with
the dict value defaulting to boolean true. -/
theorem claim_C8_flag_lookahead (fs : FS) (posix : Bool) (a next : List Char)
    (rest2 : List (List Char)) (r : ParsedArgs) :
    (startsWith1 '/' a = true →
      paLoop fs posix (a :: next :: rest2) r =
        (if startsWith1 '-' next || startsWith1 '/' next then
          paLoop fs posix (next :: rest2) {r with commands := r.commands ++ [(a.drop 1, none)]}
        else
          paLoop fs posix rest2 {r with commands := r.commands ++ [(a.drop 1, some next)]}) ∧
      paLoop fs posix [a] r = {r with commands := r.commands ++ [(a.drop 1, none)]}) ∧
    (startsWith1 '-' a = true →
      paLoop fs posix (a :: next :: rest2) r =
        (if startsWith1 '-' next || startsWith1 '/' next then
          paLoop fs posix (next :: rest2) {r with options := setOpt r.options a OptVal.boolTrue}
        else
          paLoop fs posix rest2 {r with options := setOpt r.options a (OptVal.str next)}) ∧
      paLoop fs posix [a] r = {r with options := setOpt r.options a OptVal.boolTrue}) := by
  constructor
  · intro h
    by_cases hn : (startsWith1 '-' next || startsWith1 '/' next) = true
    · simp [paLoop, h, hn]
    · simp [paLoop, h, hn]
  · intro h
    have hh : a.head? = some '-' := by simpa [startsWith1] using h
    have hslash : startsWith1 '/' a = false := by simp [startsWith1, hh]
    by_cases hn : (startsWith1 '-' next || startsWith1 '/' next) = true
    · simp [paLoop, h, hslash, hn]
    · simp [paLoop, h, hslash, hn]

/-- C8 witness: `/p 1+1` consumes `1+1` as the flag value; a lone `-x`
stores boolean true. -/
theorem claim_C8_flag_lookahead_witness :
    (paLoop fsEmpty true ["/p".toList, "1+1".toList] emptyParsed =
        paLoop fsEmpty true []
          {emptyParsed with commands := emptyParsed.commands ++ [("p".toList, some "1+1".toList)]}) ∧
      paLoop fsEmpty true ["-x".toList] emptyParsed =
        {emptyParsed with options := setOpt emptyParsed.options "-x".toList OptVal.boolTrue} := by
  constructor
  · have h := ((claim_C8_flag_lookahead fsEmpty true "/p".toList "1+1".toList [] emptyParsed).1 rfl).1
    rw [if_neg (by decide)] at h
    exact h
  · exact ((claim_C8_flag_lookahead fsEmpty true "-x".toList "y".toList [] emptyParsed).2 rfl).2

/-! ## Lemmas about the priority executor -/

/-- the trailing option loop appends its entries after whatever results
have been accumulated. -/
theorem optionLoop_eq (opts : List (List Char × OptVal)) :
    ∀ res, optionLoop opts res = res ++ optionEffects opts := by
  induction opts with
  | nil => intro res; simp [optionLoop, optionEffects]
  | cons ov rest ih =>
    intro res
    obtain ⟨o, v⟩ := ov
    by_cases hc : o = "-console".toList
    · simp only [optionLoop, optionEffects]
      rw [if_pos hc, if_pos hc, ih]
      simp [List.append_assoc]
    · by_cases hb : o = "-bash".toList
      · simp only [optionLoop, optionEffects]
        rw [if_neg hc, if_neg hc, if_pos hb, if_pos hb, ih]
        simp [List.append_assoc]
      · simp only [optionLoop, optionEffects]
        rw [if_neg hc, if_neg hc, if_neg hb, if_neg hb, ih]

/-- the result list of the executor, flattened: the five categories in their
fixed order, then the recognized option entries. -/
theorem execute_in_order_eq (H : Handlers) (p : ParsedArgs) :
    execute_in_order H p =
      runCategory H p Category.commands ++ runCategory H p Category.scripts ++
        runCategory H p Category.files ++ runCategory H p Category.directories ++
        runCategory H p Category.executables ++ optionEffects p.options := by
  rw [execute_in_order, optionLoop_eq]
  simp [executionSequence, execLoop, List.append_assoc]

/-- each recognized side-effecting option contributes exactly one entry. -/
theorem optionEffects_length (opts : List (List Char × OptVal)) :
    (optionEffects opts).length = sideEffectCount opts := by
  induction opts with
  | nil => rfl
  | cons ov rest ih =>
    obtain ⟨o, v⟩ := ov
    by_cases hc : o = "-console".toList
    · simp only [optionEffects, sideEffectCount]
      rw [if_pos hc, if_pos (Or.inl hc)]
      simp [ih]
      omega
    · by_cases hb : o = "-bash".toList
      · simp only [optionEffects, sideEffectCount]
        rw [if_neg hc, if_pos hb, if_pos (Or.inr hb)]
        simp [ih]
        omega
      · simp only [optionEffects, sideEffectCount]
        rw [if_neg hc, if_neg hb, if_neg (not_or.mpr ⟨hc, hb⟩)]
        simp [ih]

/-! ## Claims about the priority executor -/

/-- C6 — for every classified-argument value the executor emits results in
the fixed category order flag-commands, scripts, files, directories,
executables (each bucket mapped over in its stored order, which is the
original relative argv order), with the recognized option side-effect
entries appended only after all five categories. -/
theorem claim_C6_fixed_order (H : Handlers) (p : ParsedArgs) :
    execute_in_order H p =
      p.commands.map (runCmdItem H) ++
        p.scripts.map (runStrItem H.script Category.scripts) ++
        p.files.map (runStrItem H.file Category.files) ++
        p.directories.map (runStrItem H.dir Category.directories) ++
        p.executables.map (runStrItem H.prog Category.executables) ++
        optionEffects p.options :=
  execute_in_order_eq H p

/-- C5 counterexample — one classified file item plus the options
`-console` and `-x`: the raising file handler is caught and recorded, but
the final result list has length 2, which is neither the item count of the
five executed buckets (1) nor the count including the options bucket (3),
refuting the claimed length equation. -/
theorem claim_C5_counterexample :
    execute_in_order fileRaises
        {emptyParsed with files := ["f".toList],
                          options := [("-console".toList, OptVal.boolTrue),
                                      ("-x".toList, OptVal.boolTrue)]} =
      [("file: f".toList ++ errSuffix "boom".toList, false),
       ("选项: 切换到控制台界面".toList, true)] ∧
      fiveCount {emptyParsed with files := ["f".toList],
                                  options := [("-console".toList, OptVal.boolTrue),
                                              ("-x".toList, OptVal.boolTrue)]} = 1 := by
  decide

/-- C5 (amended) — the executor is fault-isolating per item: with
arbitrary handlers (so in particular ones that signal failure or raise on
some items) every classified item in the five executed buckets yields
exactly one result, so the final list length is the five-bucket item count
plus one extra entry per recognized side-effecting option (`-console`,
`-bash`); and a file item whose handler raises is recorded as a failed
result with the reason embedded in the label, the rest of its bucket
unaffected. -/
theorem claim_C5_fault_isolation (H : Handlers) (p : ParsedArgs) (x m : List Char)
    (hx : H.file x = Except.error m) :
    (execute_in_order H p).length = fiveCount p + sideEffectCount p.options ∧
      runCategory H {p with files := x :: p.files} Category.files =
        (catLabel Category.files ++ x ++ errSuffix m, false) ::
          runCategory H p Category.files := by
  constructor
  · rw [execute_in_order_eq]
    simp only [List.length_append, runCategory, List.length_map, optionEffects_length,
      fiveCount]
  · simp [runCategory, runStrItem, hx]

/-- C5 witness. -/
theorem claim_C5_fault_isolation_witness :
    ((execute_in_order fileRaises {emptyParsed with files := ["f".toList]}).length =
        fiveCount {emptyParsed with files := ["f".toList]} +
          sideEffectCount ({emptyParsed with files := ["f".toList]} : ParsedArgs).options) ∧
      runCategory fileRaises
          {({emptyParsed with files := ["f".toList]} : ParsedArgs) with
            files := "g".toList :: ({emptyParsed with files := ["f".toList]} : ParsedArgs).files}
          Category.files =
        (catLabel Category.files ++ "g".toList ++ errSuffix "boom".toList, false) ::
          runCategory fileRaises {emptyParsed with files := ["f".toList]} Category.files :=
  claim_C5_fault_isolation fileRaises {emptyParsed with files := ["f".toList]}
    "g".toList "boom".toList rfl

end Zetas
